import Mathlib

/-!
Shallow embedding of `src/TP2425/TP6-AA-multiple-unknown-winners/oracle.py`
(class `QuantumOracle`) and proofs about it.

Python strings are modelled as `List Char`, byte strings as `List Nat`
(each byte `< 256`).  The external library boundaries are modelled as
follows: file reading together with `json.load` is an `Option ConfigJson`
input (`none` = missing/unreadable file or malformed JSON, which Python
surfaces as `FileNotFoundError` / `json.JSONDecodeError`);
`base64.b64decode`, `bytes.decode("utf-8")` and `int(...)` are embedded as
executable Lean functions below.  `qml.*` calls are recorded as a trace of
`Op` values, since the oracle only emits gate calls to the active circuit
context.
-/

/-- Python string model. -/
abbrev PyStr := List Char

/-- `'0' ≤ c ≤ '9'`, as in Python's decimal-digit check for ASCII digits. -/
def isDigit (c : Char) : Bool := '0' ≤ c && c ≤ '9'

/-- Python `str.zfill(width)`: left-pad with `'0'` to `width`; a leading
sign character stays in front of the inserted zeros; a string already of
length `≥ width` is returned unchanged (zfill never truncates). -/
def zfill (width : Nat) (s : PyStr) : PyStr :=
  if width ≤ s.length then s
  else
    match s with
    | [] => List.replicate width '0'
    | c :: rest =>
      if c = '-' ∨ c = '+' then
        c :: (List.replicate (width - s.length) '0' ++ rest)
      else
        List.replicate (width - s.length) '0' ++ s

/-- Binary digits of `n`, most significant first; `[]` for `0`, computed
with explicit fuel (any fuel `≥ n` gives the digits, see
`binDigitsF_fuel`). -/
def binDigitsF : Nat → Nat → List Char
  | _, 0 => []
  | 0, _ + 1 => []
  | fuel + 1, n + 1 =>
    binDigitsF fuel ((n + 1) / 2) ++ [if (n + 1) % 2 = 1 then '1' else '0']

/-- Binary digits of `n`, most significant first; `[]` for `0`
(helper for Python `bin(n)[2:]`). -/
def binDigits (n : Nat) : List Char := binDigitsF n n

/-- Python `bin(n)[2:]` for a natural number `n` (`bin(0)[2:] = "0"`). -/
def pyBinNat (n : Nat) : PyStr := if n = 0 then ['0'] else binDigits n

/-- Python `bin(i)[2:]` for an arbitrary integer: for `i < 0`, `bin(i)` is
`"-0b..."` so slicing off two characters leaves `'b'` followed by the
binary digits of `|i|`. -/
def pyBinInt (i : Int) : PyStr :=
  if i < 0 then 'b' :: pyBinNat i.natAbs else pyBinNat i.toNat

/-- Decimal digit character for `d < 10`. -/
def decChar (d : Nat) : Char :=
  (['0', '1', '2', '3', '4', '5', '6', '7', '8', '9'].getD d '0')

/-- Decimal digits of `n`, most significant first; `[]` for `0`, computed
with explicit fuel (any fuel `≥ n` gives the digits, see
`natDecDigitsF_fuel`). -/
def natDecDigitsF : Nat → Nat → List Char
  | _, 0 => []
  | 0, _ + 1 => []
  | fuel + 1, n + 1 =>
    natDecDigitsF fuel ((n + 1) / 10) ++ [decChar ((n + 1) % 10)]

/-- Decimal digits of `n`, most significant first; `[]` for `0`
(helper for Python `str(n)`). -/
def natDecDigits (n : Nat) : List Char := natDecDigitsF n n

/-- Python `str(n)` for a natural number. -/
def pyStrNat (n : Nat) : PyStr := if n = 0 then ['0'] else natDecDigits n

/-! ### Base64 (`base64.b64encode` / `base64.b64decode`)

Standard RFC 4648 alphabet with `'='` padding.  The decoder accepts the
canonical form produced by the encoder: groups of four alphabet
characters, the final group optionally carrying one or two `'='` pads.
CPython's non-strict decoder is more lenient (it discards characters
outside the alphabet before decoding, so e.g. an embedded space is
ignored rather than rejected): the model's decode failures are a strict
superset of CPython's, and on canonical encodings — all that the
round-trip and success-side theorems use — the two agree byte for
byte. -/

def b64Alphabet : List Char :=
  "ABCDEFGHIJKLMNOPQRSTUVWXYZabcdefghijklmnopqrstuvwxyz0123456789+/".data

/-- The alphabet character of a 6-bit value. -/
def b64EncChar (k : Nat) : Char := b64Alphabet.getD k '?'

/-- The 6-bit value of an alphabet character, `none` outside the alphabet. -/
def b64DecChar (c : Char) : Option Nat :=
  let i := b64Alphabet.indexOf c
  if i < b64Alphabet.length then some i else none

/-- `base64.b64encode` on a byte list, producing the base64 text. -/
def b64EncodeBytes : List Nat → List Char
  | b1 :: b2 :: b3 :: rest =>
    b64EncChar (b1 / 4) :: b64EncChar ((b1 % 4) * 16 + b2 / 16) ::
      b64EncChar ((b2 % 16) * 4 + b3 / 64) :: b64EncChar (b3 % 64) ::
      b64EncodeBytes rest
  | [b1, b2] =>
    [b64EncChar (b1 / 4), b64EncChar ((b1 % 4) * 16 + b2 / 16),
      b64EncChar ((b2 % 16) * 4), '=']
  | [b1] => [b64EncChar (b1 / 4), b64EncChar ((b1 % 4) * 16), '=', '=']
  | [] => []

/-- `base64.b64decode` on the base64 text, `none` on invalid input
(CPython raises `binascii.Error` there). -/
def b64DecodeChars : List Char → Option (List Nat)
  | [] => some []
  | c1 :: c2 :: c3 :: c4 :: rest =>
    if c3 = '=' then
      if c4 = '=' ∧ rest = [] then
        match b64DecChar c1, b64DecChar c2 with
        | some k1, some k2 => some [k1 * 4 + k2 / 16]
        | _, _ => none
      else none
    else if c4 = '=' then
      if rest = [] then
        match b64DecChar c1, b64DecChar c2, b64DecChar c3 with
        | some k1, some k2, some k3 =>
          some [k1 * 4 + k2 / 16, (k2 % 16) * 16 + k3 / 4]
        | _, _, _ => none
      else none
    else
      match b64DecChar c1, b64DecChar c2, b64DecChar c3, b64DecChar c4,
          b64DecodeChars rest with
      | some k1, some k2, some k3, some k4, some tail =>
        some ([k1 * 4 + k2 / 16, (k2 % 16) * 16 + k3 / 4, (k3 % 4) * 64 + k4]
          ++ tail)
      | _, _, _, _, _ => none
  | _ => none

/-! ### UTF-8 (`bytes.decode("utf-8")` and `str.encode`) -/

/-- UTF-8 encoding of one character. -/
def utf8EncodeChar (c : Char) : List Nat :=
  let n := c.toNat
  if n < 0x80 then [n]
  else if n < 0x800 then [0xC0 + n / 64, 0x80 + n % 64]
  else if n < 0x10000 then
    [0xE0 + n / 4096, 0x80 + (n / 64) % 64, 0x80 + n % 64]
  else
    [0xF0 + n / 262144, 0x80 + (n / 4096) % 64, 0x80 + (n / 64) % 64,
      0x80 + n % 64]

/-- `str.encode("utf-8")`. -/
def utf8Encode (s : PyStr) : List Nat := (s.map utf8EncodeChar).flatten

/-- A UTF-8 continuation byte. -/
def isCont (b : Nat) : Bool := 0x80 ≤ b && b < 0xC0

/-- Decode one UTF-8 code point whose lead byte is `b` and whose
continuation bytes head `rest`: the code point together with the number of
continuation bytes consumed, `none` on an invalid sequence.  Overlong
encodings, surrogates and values above `U+10FFFF` are rejected via the
usual lead/continuation range checks. -/
def utf8Head1 (b : Nat) (rest : List Nat) : Option (Nat × Nat) :=
  if b < 0x80 then some (b, 0)
  else if b < 0xC2 then none
  else if b ≤ 0xDF then
    match rest with
    | b2 :: _ =>
      if isCont b2 then some ((b - 0xC0) * 64 + (b2 - 0x80), 1) else none
    | _ => none
  else if b ≤ 0xEF then
    match rest with
    | b2 :: b3 :: _ =>
      if isCont b2 && isCont b3
          && (b ≠ 0xE0 || 0xA0 ≤ b2) && (b ≠ 0xED || b2 < 0xA0) then
        some ((b - 0xE0) * 4096 + (b2 - 0x80) * 64 + (b3 - 0x80), 2)
      else none
    | _ => none
  else if b ≤ 0xF4 then
    match rest with
    | b2 :: b3 :: b4 :: _ =>
      if isCont b2 && isCont b3 && isCont b4
          && (b ≠ 0xF0 || 0x90 ≤ b2) && (b ≠ 0xF4 || b2 < 0x90) then
        some ((b - 0xF0) * 262144 + (b2 - 0x80) * 4096
          + (b3 - 0x80) * 64 + (b4 - 0x80), 3)
      else none
    | _ => none
  else none

/-- The UTF-8 decode loop with explicit fuel; every step consumes at
least the lead byte, so fuel equal to the byte count suffices (see
`utf8DecodeF_fuel`). -/
def utf8DecodeF : Nat → List Nat → Option PyStr
  | _, [] => some []
  | 0, _ :: _ => none
  | fuel + 1, b :: rest =>
    match utf8Head1 b rest with
    | none => none
    | some (cp, k) =>
      match utf8DecodeF fuel (rest.drop k) with
      | some cs => some (Char.ofNat cp :: cs)
      | none => none

/-- `bytes.decode("utf-8")`: `none` on invalid sequences (CPython raises
`UnicodeDecodeError`). -/
def utf8Decode (l : List Nat) : Option PyStr := utf8DecodeF l.length l

/-! ### Python `int(str)` -/

/-- ASCII whitespace stripped by Python `int()` (CPython also strips some
Unicode space characters; the decimal payloads here are ASCII). -/
def isPySpace (c : Char) : Bool :=
  c = ' ' || c = '\t' || c = '\n' || c = '\x0d' || c = '\x0b' || c = '\x0c'

/-- Strip leading and trailing whitespace. -/
def stripWs (s : PyStr) : PyStr :=
  ((s.dropWhile isPySpace).reverse.dropWhile isPySpace).reverse

/-- Accumulate decimal digits after the first one; a single `'_'` is
allowed between two digits, as in Python's integer literal grammar. -/
def parseDigitsAux : List Char → Nat → Option Nat
  | [], acc => some acc
  | c :: rest, acc =>
    if isDigit c then parseDigitsAux rest (acc * 10 + (c.toNat - 48))
    else if c = '_' then
      match rest with
      | r :: rest2 =>
        if isDigit r then parseDigitsAux rest2 (acc * 10 + (r.toNat - 48))
        else none
      | [] => none
    else none

/-- Parse a nonempty unsigned decimal-digit string (underscores between
digits allowed). -/
def parseDigits : List Char → Option Nat
  | [] => none
  | c :: rest =>
    if isDigit c then parseDigitsAux rest (c.toNat - 48) else none

/-- Python `int(s)`: strip whitespace, optional sign, decimal digits;
`none` when CPython raises `ValueError`. -/
def pyIntParse (s : PyStr) : Option Int :=
  match stripWs s with
  | [] => none
  | c :: rest =>
    if c = '-' then (parseDigits rest).map (fun n => -(n : Int))
    else if c = '+' then (parseDigits rest).map (fun n => (n : Int))
    else (parseDigits (c :: rest)).map (fun n => (n : Int))

/-! ### The oracle (`oracle.py`) -/

/-- The spec's construction-time error taxonomy (`ConfigError`): file
missing/unreadable, malformed JSON, invalid Base64, undecodable bytes,
non-integer decoded payload.  CPython surfaces these as the built-in
exceptions `FileNotFoundError` / `json.JSONDecodeError` /
`binascii.Error` / `UnicodeDecodeError` / `ValueError`; the spec names
the whole category `ConfigError`. -/
inductive ConfigError where
  | fileOrJson
  | invalidBase64
  | invalidUtf8
  | notAnInteger
deriving DecidableEq, Repr

/-- The parsed JSON configuration object: the `"marked_states"` and
`"solutions"` lists of Base64 text entries.  A file whose JSON is not an
object with these two keys of strings is folded into the `none` input of
`load_config` (CPython raises `KeyError`/`TypeError` there, still a
construction-time failure). -/
structure ConfigJson where
  marked_states : List PyStr
  solutions : List PyStr
deriving DecidableEq, Repr

/-- The `QuantumOracle` object after a successful `__init__`. -/
structure QuantumOracle where
  input_registers : List Nat
  n_qubits : Nat
  marked_states : List PyStr
  solutions : List PyStr
deriving DecidableEq, Repr

/-- `QuantumOracle._decode_base64`:
`bin(int(base64.b64decode(encoded_str).decode("utf-8")))[2:].zfill(self.n_qubits)`,
with each failing library call mapped to its error category. -/
def decode_base64 (n_qubits : Nat) (encoded_str : PyStr) :
    Except ConfigError PyStr :=
  match b64DecodeChars encoded_str with
  | none => .error .invalidBase64
  | some bs =>
    match utf8Decode bs with
    | none => .error .invalidUtf8
    | some s =>
      match pyIntParse s with
      | none => .error .notAnInteger
      | some i => .ok (zfill n_qubits (pyBinInt i))

/-- The list comprehension `[self._decode_base64(state) for state in ...]`:
entries are decoded left to right and the first raised exception aborts
the whole comprehension. -/
def decodeAll (n_qubits : Nat) : List PyStr → Except ConfigError (List PyStr)
  | [] => .ok []
  | e :: rest =>
    match decode_base64 n_qubits e with
    | .error err => .error err
    | .ok s =>
      match decodeAll n_qubits rest with
      | .error err => .error err
      | .ok ss => .ok (s :: ss)

/-- `QuantumOracle._load_config`: decode every entry of both lists
(first failure aborts, as the first raised exception does in Python). -/
def load_config (n_qubits : Nat) (file : Option ConfigJson) :
    Except ConfigError (List PyStr × List PyStr) :=
  match file with
  | none => .error .fileOrJson
  | some data =>
    match decodeAll n_qubits data.marked_states with
    | .error err => .error err
    | .ok marked_states =>
      match decodeAll n_qubits data.solutions with
      | .error err => .error err
      | .ok solutions => .ok (marked_states, solutions)

/-- `QuantumOracle.__init__`: store the register and qubit count, then
load the configuration; a raised exception aborts construction, so no
oracle object is produced on failure. -/
def mkOracle (input_registers : List Nat) (n_qubits : Nat)
    (file : Option ConfigJson) : Except ConfigError QuantumOracle :=
  (load_config n_qubits file).map fun p =>
    { input_registers := input_registers, n_qubits := n_qubits,
      marked_states := p.1, solutions := p.2 }

/-- One emitted `qml.*` call of `apply_oracle`. -/
inductive Op where
  | adder (k : Int) (wires : List Nat) (modulus : Nat)
  | paulix (wire : Nat)
  | cz (control_wires : List Nat) (target : Nat)
deriving DecidableEq, Repr

/-- The loop `for i, bit in enumerate(state): if bit == "0":
qml.PauliX(wires=self.input_registers[i])`, started at index `i`.
`self.input_registers[i]` is evaluated only for a `'0'` bit and raises
`IndexError` when `i` is out of range (a marked state can be longer than
the register list, since decoding never truncates); `none` models that
raise, so no completed gate list exists on the error path. -/
def maskOps (regs : List Nat) : Nat → PyStr → Option (List Op)
  | _, [] => some []
  | i, bit :: rest =>
    if bit = '0' then
      match regs[i]?, maskOps regs (i + 1) rest with
      | some w, some ops => some (Op.paulix w :: ops)
      | _, _ => none
    else maskOps regs (i + 1) rest

/-- The body of one iteration of `for state in self.marked_states`: the
X-mask, then
`qml.ControlledQubitUnitary(qml.PauliZ(self.input_registers[-1]),
control_wires=self.input_registers[:-1])`, then the X-unmask.  The
unmask loop repeats the mask loop verbatim, so its gates are the mask's
gates again.  `regs[-1]` raises `IndexError` on an empty register list;
`none` models an `IndexError` raised anywhere in the iteration. -/
def stateOps (regs : List Nat) (state : PyStr) : Option (List Op) :=
  match maskOps regs 0 state, regs.getLast? with
  | some mask, some target =>
    some (mask ++ [Op.cz regs.dropLast target] ++ mask)
  | _, _ => none

/-- The loop `for state in self.marked_states`, first raise aborting. -/
def statesOps (regs : List Nat) : List PyStr → Option (List Op)
  | [] => some []
  | state :: rest =>
    match stateOps regs state, statesOps regs rest with
    | some ops, some more => some (ops ++ more)
    | _, _ => none

/-- `QuantumOracle.apply_oracle` as the trace of emitted `qml.*` calls:
`qml.Adder(1, regs, 2**n)`, then per marked state the X-mask, the
controlled-Z and the X-unmask, then `qml.Adder(-1, regs, 2**n)`.
`none` models the call raising `IndexError` (out-of-range wire index in
a mask, or `regs[-1]` on an empty register list): Python then emits a
prefix of the gates and aborts, so no completed trace exists. -/
def apply_oracle (o : QuantumOracle) : Option (List Op) :=
  match statesOps o.input_registers o.marked_states with
  | none => none
  | some mid =>
    some ([Op.adder 1 o.input_registers (2 ^ o.n_qubits)]
      ++ mid ++ [Op.adder (-1) o.input_registers (2 ^ o.n_qubits)])

/-- `QuantumOracle.is_solution`:
`binary_x = "".join(bin(i)[2:] for i in x)`;
`return 1 if binary_x in self.solutions else 0`. -/
def is_solution (o : QuantumOracle) (x : List Int) : Nat :=
  let binary_x := (x.map pyBinInt).flatten
  if binary_x ∈ o.solutions then 1 else 0

/-- `apply_oracle` as a state transformer on the object: the method body
contains no assignment to any `self` field, so its translation returns
the object unchanged next to the emitted trace (or `none` where the call
raises; a raising call mutates no field either). -/
def applyOracleS (o : QuantumOracle) : QuantumOracle × Option (List Op) :=
  (o, apply_oracle o)

/-- `is_solution` as a state transformer on the object: the method body
contains no assignment to any `self` field. -/
def isSolutionS (o : QuantumOracle) (x : List Int) : QuantumOracle × Nat :=
  (o, is_solution o x)

/-- Number of `'0'` characters of a marked state. -/
def countZeros (s : PyStr) : Nat := (s.filter (fun c => c = '0')).length

/-- The bit positions of a string holding `'0'`, in increasing order
(spec-side description of which wires the X-mask touches). -/
def zeroPositions (s : PyStr) : List Nat :=
  (List.range s.length).filter (fun i => s.getD i ' ' = '0')

/-! ### Lemmas: fuel irrelevance of the fuelled helpers

The fuel arguments are an implementation device only: any fuel at least
the natural number (respectively the byte count) computes the same
result, so `binDigits`, `natDecDigits` and `utf8Decode` are well defined
models of `bin`, `str` and `bytes.decode`. -/

theorem binDigitsF_fuel :
    ∀ f g n : Nat, n ≤ f → n ≤ g → binDigitsF f n = binDigitsF g n := by
  intro f
  induction f with
  | zero =>
    intro g n hf _
    obtain rfl : n = 0 := by omega
    cases g <;> rfl
  | succ f ih =>
    intro g n hf hg
    cases n with
    | zero => cases g <;> rfl
    | succ m =>
      cases g with
      | zero => omega
      | succ g2 =>
        rw [binDigitsF, binDigitsF, ih g2 ((m + 1) / 2) (by omega) (by omega)]

theorem natDecDigitsF_fuel :
    ∀ f g n : Nat, n ≤ f → n ≤ g → natDecDigitsF f n = natDecDigitsF g n := by
  intro f
  induction f with
  | zero =>
    intro g n hf _
    obtain rfl : n = 0 := by omega
    cases g <;> rfl
  | succ f ih =>
    intro g n hf hg
    cases n with
    | zero => cases g <;> rfl
    | succ m =>
      cases g with
      | zero => omega
      | succ g2 =>
        rw [natDecDigitsF, natDecDigitsF, ih g2 ((m + 1) / 10) (by omega) (by omega)]

theorem utf8DecodeF_fuel :
    ∀ f g : Nat, ∀ l : List Nat, l.length ≤ f → l.length ≤ g →
      utf8DecodeF f l = utf8DecodeF g l := by
  intro f
  induction f with
  | zero =>
    intro g l hf _
    have : l = [] := by
      cases l with
      | nil => rfl
      | cons b rest => simp at hf
    subst this
    cases g <;> rfl
  | succ f ih =>
    intro g l hf hg
    cases l with
    | nil => cases g <;> rfl
    | cons b rest =>
      cases g with
      | zero => simp at hg
      | succ g2 =>
        rw [utf8DecodeF, utf8DecodeF]
        rcases hh : utf8Head1 b rest with _ | ⟨cp, k⟩
        · rfl
        · have h1 : (rest.drop k).length ≤ f := by
            rw [List.length_drop]
            simp at hf
            omega
          have h2 : (rest.drop k).length ≤ g2 := by
            rw [List.length_drop]
            simp at hg
            omega
          simp only [hh]
          rw [ih g2 (rest.drop k) h1 h2]

/-- Sanity: reading the digits produced by `binDigitsF` back in base 2
recovers the number, so they are the binary digits. -/
theorem foldl_binDigitsF :
    ∀ fuel n : Nat, n ≤ fuel → ∀ acc : Nat,
      (binDigitsF fuel n).foldl
          (fun a c => a * 2 + (if c = '1' then 1 else 0)) acc
        = acc * 2 ^ (binDigitsF fuel n).length + n := by
  intro fuel
  induction fuel with
  | zero =>
    intro n hn acc
    obtain rfl : n = 0 := by omega
    simp [binDigitsF]
  | succ f ih =>
    intro n hn acc
    cases n with
    | zero => simp [binDigitsF]
    | succ m =>
      rw [binDigitsF, List.foldl_append, ih _ (by omega), List.length_append]
      have hbit : (if (if (m + 1) % 2 = 1 then '1' else '0') = '1' then 1 else 0)
          = (m + 1) % 2 := by
        by_cases hp : (m + 1) % 2 = 1
        · simp [hp]
        · have : (m + 1) % 2 = 0 := by omega
          simp [hp, this]
      simp only [List.foldl_cons, List.foldl_nil, List.length_cons,
        List.length_nil, hbit, pow_succ, ← Nat.mul_assoc]
      omega

/-! ### Lemmas: base64 round-trip -/

theorem b64DecChar_encChar : ∀ k < 64, b64DecChar (b64EncChar k) = some k := by
  decide

theorem b64EncChar_ne_pad : ∀ k < 64, b64EncChar k ≠ '=' := by
  decide

theorem b64_roundtrip :
    ∀ bs : List Nat, (∀ b ∈ bs, b < 256) →
      b64DecodeChars (b64EncodeBytes bs) = some bs := by
  intro bs
  induction bs using b64EncodeBytes.induct with
  | case1 b1 b2 b3 rest ih =>
    intro h
    have h1 : b1 < 256 := h b1 (by simp)
    have h2 : b2 < 256 := h b2 (by simp)
    have h3 : b3 < 256 := h b3 (by simp)
    have e1 := b64DecChar_encChar (b1 / 4) (by omega)
    have e2 := b64DecChar_encChar ((b1 % 4) * 16 + b2 / 16) (by omega)
    have e3 := b64DecChar_encChar ((b2 % 16) * 4 + b3 / 64) (by omega)
    have e4 := b64DecChar_encChar (b3 % 64) (by omega)
    have n3 := b64EncChar_ne_pad ((b2 % 16) * 4 + b3 / 64) (by omega)
    have n4 := b64EncChar_ne_pad (b3 % 64) (by omega)
    rw [b64EncodeBytes, b64DecodeChars, if_neg n3, if_neg n4, e1, e2, e3, e4,
      ih (fun b hb => h b (by simp [hb]))]
    refine congrArg some ?_
    have hb1 : b1 / 4 * 4 + ((b1 % 4) * 16 + b2 / 16) / 16 = b1 := by omega
    have hb2 : ((b1 % 4) * 16 + b2 / 16) % 16 * 16 + ((b2 % 16) * 4 + b3 / 64) / 4 = b2 := by
      omega
    have hb3 : ((b2 % 16) * 4 + b3 / 64) % 4 * 64 + b3 % 64 = b3 := by omega
    simp [hb1, hb2, hb3]
  | case2 b1 b2 =>
    intro h
    have h1 : b1 < 256 := h b1 (by simp)
    have h2 : b2 < 256 := h b2 (by simp)
    have e1 := b64DecChar_encChar (b1 / 4) (by omega)
    have e2 := b64DecChar_encChar ((b1 % 4) * 16 + b2 / 16) (by omega)
    have e3 := b64DecChar_encChar ((b2 % 16) * 4) (by omega)
    have n3 := b64EncChar_ne_pad ((b2 % 16) * 4) (by omega)
    rw [b64EncodeBytes, b64DecodeChars, if_neg n3, if_pos rfl, e1, e2, e3]
    refine congrArg some ?_
    simp only [List.cons.injEq, and_true]
    constructor <;> omega
  | case3 b1 =>
    intro h
    have h1 : b1 < 256 := h b1 (by simp)
    have e1 := b64DecChar_encChar (b1 / 4) (by omega)
    have e2 := b64DecChar_encChar ((b1 % 4) * 16) (by omega)
    rw [b64EncodeBytes, b64DecodeChars, if_pos rfl, if_pos ⟨rfl, rfl⟩, e1, e2]
    refine congrArg some ?_
    simp only [List.cons.injEq, and_true]
    omega
  | case4 => intro _; rfl

/-! ### Lemmas: UTF-8 round-trip on ASCII text -/

theorem utf8DecodeF_step (fuel b : Nat) (rest : List Nat) (cp k : Nat)
    (h : utf8Head1 b rest = some (cp, k)) :
    utf8DecodeF (fuel + 1) (b :: rest)
      = match utf8DecodeF fuel (rest.drop k) with
        | some cs => some (Char.ofNat cp :: cs)
        | none => none := by
  rw [utf8DecodeF, h]

theorem utf8Encode_ascii_bytes :
    ∀ s : PyStr, (∀ c ∈ s, c.toNat < 128) → ∀ b ∈ utf8Encode s, b < 256 := by
  intro s
  induction s with
  | nil => intro _ b hb; simp [utf8Encode] at hb
  | cons c rest ih =>
    intro h b hb
    have hc : c.toNat < 128 := h c (by simp)
    have hchar : utf8EncodeChar c = [c.toNat] := by
      rw [utf8EncodeChar]
      exact if_pos hc
    rw [utf8Encode, List.map_cons, List.flatten_cons, hchar] at hb
    rcases List.mem_append.mp hb with hx | hx
    · have : b = c.toNat := by simpa using hx
      omega
    · exact ih (fun a ha => h a (by simp [ha])) b hx

theorem utf8Decode_encode_ascii :
    ∀ s : PyStr, (∀ c ∈ s, c.toNat < 128) →
      utf8Decode (utf8Encode s) = some s := by
  intro s
  induction s with
  | nil => intro _; rfl
  | cons c rest ih =>
    intro h
    have hc : c.toNat < 128 := h c (by simp)
    have hchar : utf8EncodeChar c = [c.toNat] := by
      rw [utf8EncodeChar]
      exact if_pos hc
    have henc : utf8Encode (c :: rest) = c.toNat :: utf8Encode rest := by
      rw [utf8Encode, List.map_cons, List.flatten_cons, hchar]
      rfl
    have hhead : utf8Head1 c.toNat (utf8Encode rest) = some (c.toNat, 0) :=
      if_pos hc
    have ihe : utf8DecodeF (utf8Encode rest).length (utf8Encode rest) = some rest :=
      ih (fun a ha => h a (by simp [ha]))
    rw [utf8Decode, henc, List.length_cons,
      utf8DecodeF_step (utf8Encode rest).length c.toNat (utf8Encode rest)
        c.toNat 0 hhead, List.drop_zero, ihe, Char.ofNat_toNat]

/-! ### Lemmas: decimal digits and Python `int` round-trip -/

theorem decChar_props :
    ∀ d < 10, isDigit (decChar d) ∧ (decChar d).toNat = 48 + d
      ∧ ¬ isPySpace (decChar d) ∧ decChar d ≠ '-' ∧ decChar d ≠ '+' := by
  decide

theorem mem_natDecDigitsF :
    ∀ fuel n : Nat, ∀ c ∈ natDecDigitsF fuel n, ∃ d, d < 10 ∧ c = decChar d := by
  intro fuel
  induction fuel with
  | zero => intro n c hc; cases n <;> simp [natDecDigitsF] at hc
  | succ f ih =>
    intro n c hc
    cases n with
    | zero => simp [natDecDigitsF] at hc
    | succ m =>
      rw [natDecDigitsF] at hc
      rcases List.mem_append.mp hc with h | h
      · exact ih _ c h
      · exact ⟨(m + 1) % 10, by omega, by simpa using h⟩

theorem mem_pyStrNat :
    ∀ n : Nat, ∀ c ∈ pyStrNat n, ∃ d, d < 10 ∧ c = decChar d := by
  intro n c hc
  unfold pyStrNat at hc
  split at hc
  · exact ⟨0, by omega, by simpa using hc⟩
  · exact mem_natDecDigitsF n n c hc

theorem parseDigitsAux_all_digits :
    ∀ l : List Char, (∀ c ∈ l, isDigit c) → ∀ acc : Nat,
      parseDigitsAux l acc
        = some (l.foldl (fun a c => a * 10 + (c.toNat - 48)) acc) := by
  intro l
  induction l with
  | nil => intro _ acc; rfl
  | cons c rest ih =>
    intro h acc
    rw [parseDigitsAux.eq_def]
    simp only [if_pos (h c (by simp))]
    rw [ih (fun a ha => h a (by simp [ha])), List.foldl_cons]

theorem foldl_natDecDigitsF :
    ∀ fuel n : Nat, n ≤ fuel → ∀ acc : Nat,
      (natDecDigitsF fuel n).foldl (fun a c => a * 10 + (c.toNat - 48)) acc
        = acc * 10 ^ (natDecDigitsF fuel n).length + n := by
  intro fuel
  induction fuel with
  | zero =>
    intro n hn acc
    obtain rfl : n = 0 := by omega
    simp [natDecDigitsF]
  | succ f ih =>
    intro n hn acc
    cases n with
    | zero => simp [natDecDigitsF]
    | succ m =>
      rw [natDecDigitsF, List.foldl_append, ih _ (by omega), List.length_append]
      have hd := (decChar_props ((m + 1) % 10) (by omega)).2.1
      simp only [List.foldl_cons, List.foldl_nil, List.length_cons,
        List.length_nil, hd, pow_succ, ← Nat.mul_assoc]
      omega

theorem natDecDigits_all_digits : ∀ n : Nat, ∀ c ∈ natDecDigits n, isDigit c := by
  intro n c hc
  obtain ⟨d, hd, rfl⟩ := mem_natDecDigitsF n n c hc
  exact (decChar_props d hd).1

theorem parseDigits_pyStrNat : ∀ v : Nat, parseDigits (pyStrNat v) = some v := by
  intro v
  by_cases hv : v = 0
  · subst hv; rfl
  · have hne : natDecDigits v ≠ [] := by
      cases v with
      | zero => exact absurd rfl hv
      | succ n => rw [natDecDigits, natDecDigitsF]; simp
    have hall := natDecDigits_all_digits v
    have hfold := foldl_natDecDigitsF v v (by omega) 0
    rw [pyStrNat, if_neg hv, natDecDigits]
    rw [natDecDigits] at hall hne
    rcases hcs : natDecDigitsF v v with _ | ⟨c, rest⟩
    · exact absurd hcs hne
    · rw [hcs] at hall hfold
      rw [parseDigits, if_pos (hall c (by simp)),
        parseDigitsAux_all_digits rest (fun a ha => hall a (by simp [ha]))]
      rw [List.foldl_cons] at hfold
      simp only [Nat.zero_mul, Nat.zero_add] at hfold
      rw [hfold]

theorem dropWhile_eq_self_of (p : Char → Bool) :
    ∀ l : List Char, (∀ c ∈ l, ¬ p c) → l.dropWhile p = l := by
  intro l h
  induction l with
  | nil => rfl
  | cons c rest _ =>
    rw [List.dropWhile_cons]
    simp [h c (by simp)]

theorem stripWs_eq_self (l : PyStr) (h : ∀ c ∈ l, ¬ isPySpace c) :
    stripWs l = l := by
  rw [stripWs, dropWhile_eq_self_of _ l h,
    dropWhile_eq_self_of _ l.reverse (fun c hc => h c (List.mem_reverse.mp hc)),
    List.reverse_reverse]

theorem pyIntParse_pyStrNat (v : Nat) : pyIntParse (pyStrNat v) = some (v : Int) := by
  have hmem := mem_pyStrNat v
  have hstrip : stripWs (pyStrNat v) = pyStrNat v := by
    refine stripWs_eq_self _ (fun c hc => ?_)
    obtain ⟨d, hd, rfl⟩ := hmem c hc
    exact (decChar_props d hd).2.2.1
  have hne : pyStrNat v ≠ [] := by
    rw [pyStrNat]
    split
    · simp
    · next hv =>
      cases v with
      | zero => exact absurd rfl hv
      | succ n => rw [natDecDigits, natDecDigitsF]; simp
  rw [pyIntParse, hstrip]
  rcases hcs : pyStrNat v with _ | ⟨c, rest⟩
  · exact absurd hcs hne
  · obtain ⟨d, hd, hc⟩ := hmem c (by rw [hcs]; simp)
    have hminus : ¬ c = '-' := by
      rw [hc]; exact (decChar_props d hd).2.2.2.1
    have hplus : ¬ c = '+' := by
      rw [hc]; exact (decChar_props d hd).2.2.2.2
    simp only [if_neg hminus, if_neg hplus]
    rw [← hcs, parseDigits_pyStrNat v]
    rfl

/-! ### Lemmas: `bin`, `zfill` -/

theorem pyBinInt_natCast (v : Nat) : pyBinInt (v : Int) = pyBinNat v := by
  rw [pyBinInt, if_neg (by omega)]
  norm_num

theorem mem_binDigitsF :
    ∀ fuel n : Nat, ∀ c ∈ binDigitsF fuel n, c = '0' ∨ c = '1' := by
  intro fuel
  induction fuel with
  | zero => intro n c hc; cases n <;> simp [binDigitsF] at hc
  | succ f ih =>
    intro n c hc
    cases n with
    | zero => simp [binDigitsF] at hc
    | succ m =>
      rw [binDigitsF] at hc
      rcases List.mem_append.mp hc with h | h
      · exact ih _ c h
      · have : c = if (m + 1) % 2 = 1 then '1' else '0' := by simpa using h
        rw [this]
        split
        · right; rfl
        · left; rfl

theorem mem_pyBinNat (n : Nat) : ∀ c ∈ pyBinNat n, c = '0' ∨ c = '1' := by
  intro c hc
  rw [pyBinNat] at hc
  split at hc
  · left; simpa using hc
  · exact mem_binDigitsF n n c hc

theorem zfill_length (width : Nat) (s : PyStr) :
    (zfill width s).length = max width s.length := by
  rw [zfill.eq_def]
  split
  · omega
  · split
    · simp
    · split
      · simp only [List.length_cons, List.length_append, List.length_replicate,
          List.length_nil]
        omega
      · simp only [List.length_append, List.length_replicate, List.length_cons,
          List.length_nil]
        omega

theorem zfill_mem (width : Nat) (s : PyStr) :
    ∀ c ∈ zfill width s, c = '0' ∨ c ∈ s := by
  intro c hc
  rw [zfill.eq_def] at hc
  split at hc
  · right; exact hc
  · split at hc
    · left; exact List.eq_of_mem_replicate hc
    · next a rest =>
      split at hc
      · rcases List.mem_cons.mp hc with h | h
        · right; rw [h]; simp
        · rcases List.mem_append.mp h with h2 | h2
          · left; exact List.eq_of_mem_replicate h2
          · right; simp [h2]
      · rcases List.mem_append.mp hc with h | h
        · left; exact List.eq_of_mem_replicate h
        · right; exact h

/-! ### Lemmas: the decoding pipeline and `_load_config` -/

theorem psn_ascii (v : Nat) : ∀ c ∈ pyStrNat v, c.toNat < 128 := by
  intro c hc
  obtain ⟨d, hd, rfl⟩ := mem_pyStrNat v c hc
  have := (decChar_props d hd).2.1
  omega

/-- `_decode_base64` applied to the canonical Base64 encoding of the
decimal string of `v` recovers `bin(v)[2:].zfill(n_qubits)`. -/
theorem decode_base64_encode (n v : Nat) :
    decode_base64 n (b64EncodeBytes (utf8Encode (pyStrNat v)))
      = Except.ok (zfill n (pyBinNat v)) := by
  have hb := b64_roundtrip (utf8Encode (pyStrNat v))
    (utf8Encode_ascii_bytes (pyStrNat v) (psn_ascii v))
  have hu := utf8Decode_encode_ascii (pyStrNat v) (psn_ascii v)
  have hp := pyIntParse_pyStrNat v
  rw [decode_base64, hb]
  simp only [hu, hp, pyBinInt_natCast]

theorem decodeAll_ok_length (n : Nat) :
    ∀ l out, decodeAll n l = Except.ok out → out.length = l.length := by
  intro l
  induction l with
  | nil => intro out h; cases h; rfl
  | cons e rest ih =>
    intro out h
    rw [decodeAll] at h
    rcases hd : decode_base64 n e with err | s
    · rw [hd] at h; cases h
    · rw [hd] at h
      rcases hr : decodeAll n rest with err | ss
      · rw [hr] at h; cases h
      · rw [hr] at h
        cases h
        simp [ih ss hr]

theorem decodeAll_ok_mem (n : Nat) :
    ∀ l out, decodeAll n l = Except.ok out →
      ∀ s ∈ out, ∃ e ∈ l, decode_base64 n e = Except.ok s := by
  intro l
  induction l with
  | nil => intro out h s hs; cases h; simp at hs
  | cons e rest ih =>
    intro out h s hs
    rw [decodeAll] at h
    rcases hd : decode_base64 n e with err | t
    · rw [hd] at h; cases h
    · rw [hd] at h
      rcases hr : decodeAll n rest with err | ss
      · rw [hr] at h; cases h
      · rw [hr] at h
        cases h
        rcases List.mem_cons.mp hs with h1 | h1
        · exact ⟨e, by simp, by rw [hd, h1]⟩
        · obtain ⟨e2, he2, hdec⟩ := ih ss hr s h1
          exact ⟨e2, by simp [he2], hdec⟩

theorem decodeAll_error_of_mem (n : Nat) :
    ∀ l e err, e ∈ l → decode_base64 n e = Except.error err →
      ∃ err2, decodeAll n l = Except.error err2 := by
  intro l
  induction l with
  | nil => intro e err he _; simp at he
  | cons a rest ih =>
    intro e err he hdec
    rw [decodeAll]
    rcases hd : decode_base64 n a with err3 | s
    · exact ⟨err3, rfl⟩
    · rcases List.mem_cons.mp he with h1 | h1
      · rw [h1] at hdec; rw [hdec] at hd; cases hd
      · obtain ⟨err2, herr⟩ := ih e err h1 hdec
        rw [herr]
        exact ⟨err2, rfl⟩

/-- Inversion for a successful `_decode_base64`: the result is
`bin(i)[2:].zfill(n_qubits)` for the parsed integer `i`. -/
theorem decode_base64_ok_inv (n : Nat) (e s : PyStr)
    (h : decode_base64 n e = Except.ok s) :
    ∃ i : Int, s = zfill n (pyBinInt i) := by
  rw [decode_base64] at h
  split at h
  · cases h
  · split at h
    · cases h
    · split at h
      · cases h
      · next i _ =>
        cases h
        exact ⟨i, rfl⟩

theorem load_config_ok_inv (n : Nat) (cfg : ConfigJson) (m s : List PyStr)
    (h : load_config n (some cfg) = Except.ok (m, s)) :
    decodeAll n cfg.marked_states = Except.ok m
      ∧ decodeAll n cfg.solutions = Except.ok s := by
  rw [load_config] at h
  rcases hm : decodeAll n cfg.marked_states with err | mm
  · rw [hm] at h; cases h
  · rw [hm] at h
    rcases hs : decodeAll n cfg.solutions with err | ss
    · rw [hs] at h; cases h
    · rw [hs] at h
      cases h
      exact ⟨rfl, rfl⟩

theorem mkOracle_ok_inv (regs : List Nat) (n : Nat) (file : Option ConfigJson)
    (o : QuantumOracle) (h : mkOracle regs n file = Except.ok o) :
    o.input_registers = regs ∧ o.n_qubits = n
      ∧ load_config n file = Except.ok (o.marked_states, o.solutions) := by
  rw [mkOracle] at h
  rcases hl : load_config n file with err | p
  · rw [hl] at h; cases h
  · rw [hl] at h
    cases h
    exact ⟨rfl, rfl, rfl⟩

/-! ### Lemmas: the emitted gate trace -/

theorem zeroPositions_cons (c : Char) (rest : PyStr) :
    zeroPositions (c :: rest)
      = (if c = '0' then [0] else []) ++ (zeroPositions rest).map (· + 1) := by
  have hpred : ∀ a ∈ List.range rest.length,
      ((fun i => decide ((c :: rest).getD i ' ' = '0')) ∘ Nat.succ) a
        = (fun i => decide (rest.getD i ' ' = '0')) a := by
    intro a _
    simp [List.getD_cons_succ]
  have key : List.map Nat.succ
      (List.filter ((fun i => decide ((c :: rest).getD i ' ' = '0')) ∘ Nat.succ)
        (List.range rest.length))
      = (zeroPositions rest).map (· + 1) := by
    rw [zeroPositions, List.filter_congr hpred]
  rw [zeroPositions, List.length_cons, List.range_succ_eq_map, List.filter_cons,
    List.filter_map, key]
  by_cases hc : c = '0'
  · simp [hc]
  · simp [hc]

theorem maskOps_some_length (regs : List Nat) :
    ∀ (s : PyStr) (i : Nat) (ops : List Op),
      maskOps regs i s = some ops → ops.length = countZeros s := by
  intro s
  induction s with
  | nil => intro i ops h; cases h; rfl
  | cons c rest ih =>
    intro i ops h
    rw [maskOps] at h
    by_cases hc : c = '0'
    · rw [if_pos hc] at h
      rcases hw : regs[i]? with _ | w
      · rw [hw] at h; cases h
      · rw [hw] at h
        rcases hm : maskOps regs (i + 1) rest with _ | ops2
        · rw [hm] at h; cases h
        · rw [hm] at h
          cases h
          have := ih (i + 1) ops2 hm
          simp [countZeros, List.filter_cons, hc] at this ⊢
          omega
    · rw [if_neg hc] at h
      have := ih (i + 1) ops h
      simp [countZeros, List.filter_cons, hc] at this ⊢
      omega

theorem stateOps_some_length (regs : List Nat) (s : PyStr) (ops : List Op)
    (h : stateOps regs s = some ops) : ops.length = 2 * countZeros s + 1 := by
  rw [stateOps] at h
  rcases hm : maskOps regs 0 s with _ | mask
  · rw [hm] at h; cases h
  · rw [hm] at h
    rcases hl : regs.getLast? with _ | t
    · rw [hl] at h; cases h
    · rw [hl] at h
      cases h
      have hlen := maskOps_some_length regs s 0 mask hm
      simp only [List.length_append, List.length_cons, List.length_nil, hlen]
      omega

theorem statesOps_some_length (regs : List Nat) :
    ∀ (states : List PyStr) (mid : List Op),
      statesOps regs states = some mid →
      mid.length = ((states.map fun s => 2 * countZeros s + 1).sum) := by
  intro states
  induction states with
  | nil => intro mid h; cases h; rfl
  | cons s rest ih =>
    intro mid h
    rw [statesOps] at h
    rcases hs : stateOps regs s with _ | ops
    · rw [hs] at h; cases h
    · rw [hs] at h
      rcases hr : statesOps regs rest with _ | more
      · rw [hr] at h; cases h
      · rw [hr] at h
        cases h
        rw [List.length_append, stateOps_some_length regs s ops hs, ih more hr,
          List.map_cons, List.sum_cons]

theorem maskOps_eq_some (regs : List Nat) :
    ∀ (s : PyStr) (i : Nat),
      (∀ j ∈ zeroPositions s, i + j < regs.length) →
      maskOps regs i s
        = some ((zeroPositions s).map fun j => Op.paulix (regs.getD (i + j) 0)) := by
  intro s
  induction s with
  | nil => intro i _; rfl
  | cons c rest ih =>
    intro i hb
    have hrest : ∀ j ∈ zeroPositions rest, i + 1 + j < regs.length := by
      intro j hj
      have hmem : j + 1 ∈ zeroPositions (c :: rest) := by
        rw [zeroPositions_cons]
        exact List.mem_append_right _ (List.mem_map.mpr ⟨j, hj, rfl⟩)
      have := hb (j + 1) hmem
      omega
    rw [maskOps, zeroPositions_cons, List.map_append, List.map_map,
      ih (i + 1) hrest]
    by_cases hc : c = '0'
    · have h0 : (0 : Nat) ∈ zeroPositions (c :: rest) := by
        rw [zeroPositions_cons]
        simp [hc]
      have hi : i < regs.length := by
        have := hb 0 h0
        omega
      rw [if_pos hc, if_pos hc, List.getElem?_eq_getElem hi]
      refine congrArg some ?_
      simp only [List.map_cons, List.map_nil, List.singleton_append]
      refine congrArg₂ List.cons ?_ (List.map_congr_left ?_)
      · rw [Nat.add_zero, List.getD_eq_getElem regs 0 hi]
      · intro a _
        simp only [Function.comp_apply]
        have : i + 1 + a = i + (a + 1) := by omega
        rw [this]
    · rw [if_neg hc, if_neg hc]
      simp only [List.map_nil, List.nil_append]
      refine congrArg some (List.map_congr_left ?_)
      intro a _
      simp only [Function.comp_apply]
      have : i + 1 + a = i + (a + 1) := by omega
      rw [this]

theorem maskOps_zero_eq (regs : List Nat) (s : PyStr)
    (hb : ∀ j ∈ zeroPositions s, j < regs.length) :
    maskOps regs 0 s
      = some ((zeroPositions s).map fun j => Op.paulix (regs.getD j 0)) := by
  rw [maskOps_eq_some regs s 0 (fun j hj => by have := hb j hj; omega)]
  refine congrArg some (List.map_congr_left ?_)
  intro a _
  rw [Nat.zero_add]

theorem statesOps_eq_some (regs : List Nat) (hreg : regs ≠ []) :
    ∀ states : List PyStr,
      (∀ s ∈ states, ∀ j ∈ zeroPositions s, j < regs.length) →
      statesOps regs states
        = some ((states.map fun s =>
            ((zeroPositions s).map fun j => Op.paulix (regs.getD j 0))
              ++ [Op.cz regs.dropLast (regs.getLast hreg)]
              ++ ((zeroPositions s).map fun j => Op.paulix (regs.getD j 0))).flatten) := by
  intro states
  induction states with
  | nil => intro _; rfl
  | cons s rest ih =>
    intro hb
    rw [statesOps, stateOps, maskOps_zero_eq regs s (hb s (by simp)),
      List.getLast?_eq_getLast regs hreg, ih (fun s2 hs2 => hb s2 (by simp [hs2]))]
    rfl

/-! ### The claims -/

/-- C1 (amended): for every valid configuration, the number of decoded
marked states (and solutions) equals the number of entries in the file,
and every decoded string is `bin(i)[2:].zfill(n_qubits)` for its payload
integer `i`; for a non-negative payload the string consists of `'0'`/`'1'`
characters and has length `max n_qubits (len (bin i))` — exactly
`n_qubits` precisely when the binary form fits in `n_qubits` digits.
Values wider than `n_qubits` bits are NOT truncated: `zfill` only pads. -/
theorem C1_decoded_lengths (regs : List Nat) (n : Nat) (cfg : ConfigJson)
    (o : QuantumOracle) (h : mkOracle regs n (some cfg) = Except.ok o) :
    o.marked_states.length = cfg.marked_states.length
    ∧ o.solutions.length = cfg.solutions.length
    ∧ ∀ s ∈ o.marked_states ++ o.solutions, ∃ i : Int,
        s = zfill n (pyBinInt i)
        ∧ (0 ≤ i →
            (∀ c ∈ s, c = '0' ∨ c = '1')
            ∧ s.length = max n (pyBinNat i.toNat).length
            ∧ (s.length = n ↔ (pyBinNat i.toNat).length ≤ n)) := by
  obtain ⟨hr, hn, hl⟩ := mkOracle_ok_inv regs n (some cfg) o h
  obtain ⟨hm, hs⟩ := load_config_ok_inv n cfg o.marked_states o.solutions hl
  refine ⟨decodeAll_ok_length n _ _ hm, decodeAll_ok_length n _ _ hs, ?_⟩
  intro s hmem
  have hdec : ∃ e, decode_base64 n e = Except.ok s := by
    rcases List.mem_append.mp hmem with h1 | h1
    · obtain ⟨e, _, he⟩ := decodeAll_ok_mem n _ _ hm s h1
      exact ⟨e, he⟩
    · obtain ⟨e, _, he⟩ := decodeAll_ok_mem n _ _ hs s h1
      exact ⟨e, he⟩
  obtain ⟨e, he⟩ := hdec
  obtain ⟨i, rfl⟩ := decode_base64_ok_inv n e _ he
  refine ⟨i, rfl, fun hi => ?_⟩
  have hpos : pyBinInt i = pyBinNat i.toNat := by
    rw [pyBinInt, if_neg (by omega)]
  refine ⟨?_, ?_, ?_⟩
  · intro c hc
    rcases zfill_mem n _ c hc with h0 | h0
    · left; exact h0
    · rw [hpos] at h0
      exact mem_pyBinNat _ c h0
  · rw [hpos, zfill_length]
  · rw [hpos, zfill_length]
    omega

/-- C1 witness: a concrete valid configuration with `n_qubits = 2`,
marked state `Base64("3")` and solution `Base64("1")`. -/
theorem C1_witness :
    (QuantumOracle.mk [0, 1] 2 [['1', '1']] [['0', '1']]).marked_states.length
      = (ConfigJson.mk ["Mw==".data] ["MQ==".data]).marked_states.length :=
  (C1_decoded_lengths [0, 1] 2 ⟨["Mw==".data], ["MQ==".data]⟩
    ⟨[0, 1], 2, [['1', '1']], [['0', '1']]⟩ (by rfl)).1

/-- C1 counterexample: with `n_qubits = 1` and marked state `Base64("2")`
construction succeeds and decodes to "10", a string of length 2, not 1 —
`zfill` pads but never truncates, so the claimed truncation to `n_qubits`
does not happen. -/
theorem C1_counterexample :
    ∃ o : QuantumOracle,
      mkOracle [0] 1 (some ⟨["Mg==".data], []⟩) = Except.ok o
      ∧ ∃ s ∈ o.marked_states, ¬ s.length = 1 := by
  refine ⟨⟨[0], 1, [['1', '0']], []⟩, by rfl, ⟨['1', '0'], by simp, by simp⟩⟩

/-- C2: `is_solution x` returns 1 iff the concatenation of the Python
binary forms (`bin(i)[2:]`) of the elements of `x` is string-equal to a
configured solution, and 0 otherwise; the test is exact string
membership, so no numeric equivalence across differing lengths applies. -/
theorem C2_is_solution_iff (o : QuantumOracle) (x : List Int) :
    (is_solution o x = 1 ↔ (x.map pyBinInt).flatten ∈ o.solutions)
    ∧ (is_solution o x = 0 ↔ (x.map pyBinInt).flatten ∉ o.solutions) := by
  rw [is_solution]
  by_cases h : (x.map pyBinInt).flatten ∈ o.solutions
  · simp [h]
  · simp [h]


/-- C3 (amended): whenever a single `apply_oracle()` call completes
without raising, it emits, flattened, exactly `2 + sum over marked
states of (2 * zeros(s) + 1)` operations, where `zeros(s)` counts the
`'0'` bits of the state: the increment, then per state one X gate per
`'0'` bit, one controlled-Z, and the X gates again, then the decrement.
This equals `1 + 3*len(marked_states) + 1` only when every marked state
has exactly one `'0'` bit.  (When a `'0'` bit lies beyond the register
list, or the register list is empty with marked states present, the call
raises `IndexError` instead of completing — the `none` case.) -/
theorem C3_op_count (o : QuantumOracle) (ops : List Op)
    (h : apply_oracle o = some ops) :
    ops.length = 2 + ((o.marked_states.map fun s => 2 * countZeros s + 1).sum) := by
  rw [apply_oracle] at h
  rcases hm : statesOps o.input_registers o.marked_states with _ | mid
  · rw [hm] at h; cases h
  · rw [hm] at h
    cases h
    rw [List.length_append, List.length_append,
      statesOps_some_length o.input_registers o.marked_states mid hm]
    simp only [List.length_cons, List.length_nil]
    omega

/-- C3 witness: the oracle with register `[0, 1]` and marked state "01"
(one '0' bit) completes with 5 flattened operations. -/
theorem C3_witness :
    ([Op.adder 1 [0, 1] 4, Op.paulix 0, Op.cz [0] 1, Op.paulix 0,
        Op.adder (-1) [0, 1] 4] : List Op).length
      = 2 + ((([['0', '1']] : List PyStr).map fun s => 2 * countZeros s + 1).sum) :=
  C3_op_count ⟨[0, 1], 2, [['0', '1']], []⟩ _ (by rfl)

/-- C3 counterexample: the oracle constructed from the single marked
state `Base64("3")` ("11" on two qubits, no '0' bit) completes and emits
3 flattened operations, while the claimed count `1 + 3*1 + 1` is 5. -/
theorem C3_counterexample :
    ∃ o : QuantumOracle,
      mkOracle [0, 1] 2 (some ⟨["Mw==".data], []⟩) = Except.ok o
      ∧ ∃ ops : List Op, apply_oracle o = some ops
        ∧ ops.length = 3
        ∧ ¬ ops.length = 1 + 3 * o.marked_states.length + 1 := by
  refine ⟨⟨[0, 1], 2, [['1', '1']], []⟩, by rfl,
    [Op.adder 1 [0, 1] 4, Op.cz [0] 1, Op.adder (-1) [0, 1] 4],
    by rfl, by rfl, by decide⟩

/-- C4: construction fails with a `ConfigError` (the spec's name for the
construction-time failure category, surfaced by Python as built-in
exceptions) whenever the file is missing/unreadable or its JSON is
malformed (the `none` input), or any configured entry fails the
Base64/UTF-8/integer decoding pipeline; the error is the constructor's
result, and a failed construction yields no oracle value at all. -/
theorem C4_construction_errors (regs : List Nat) (n : Nat) :
    (∃ e, mkOracle regs n none = Except.error e)
    ∧ (∀ cfg : ConfigJson,
        (∃ s ∈ cfg.marked_states ++ cfg.solutions,
          ∃ err, decode_base64 n s = Except.error err) →
        ∃ e, mkOracle regs n (some cfg) = Except.error e)
    ∧ (∀ file : Option ConfigJson, ∀ e, mkOracle regs n file = Except.error e →
        ∀ o : QuantumOracle, ¬ mkOracle regs n file = Except.ok o) := by
  refine ⟨⟨ConfigError.fileOrJson, rfl⟩, ?_, ?_⟩
  · rintro cfg ⟨s, hmem, err, herr⟩
    rcases List.mem_append.mp hmem with h1 | h1
    · obtain ⟨err2, h2⟩ := decodeAll_error_of_mem n cfg.marked_states s err h1 herr
      refine ⟨err2, ?_⟩
      rw [mkOracle, load_config, h2]
      rfl
    · rcases hm : decodeAll n cfg.marked_states with errm | mm
      · exact ⟨errm, by rw [mkOracle, load_config, hm]; rfl⟩
      · obtain ⟨err2, h2⟩ := decodeAll_error_of_mem n cfg.solutions s err h1 herr
        exact ⟨err2, by rw [mkOracle, load_config, hm, h2]; rfl⟩
  · intro file e he o
    rw [he]
    simp

/-- C4 witness: the entry "A" is not valid Base64 (one data character),
and construction from it fails. -/
theorem C4_witness :
    ∃ e, mkOracle [0] 1 (some ⟨["A".data], []⟩) = Except.error e :=
  (C4_construction_errors [0] 1).2.1 ⟨["A".data], []⟩
    ⟨"A".data, by simp, ConfigError.invalidBase64, by rfl⟩

/-- C5 (amended): whenever `apply_oracle` completes without raising —
the register list is nonempty and every marked state's `'0'` bits lie
within it — it processes the marked states in configuration order; for
each state it applies X gates on exactly the wires at the positions
whose bit is `'0'` (in position order; under the length hypothesis
`getD j 0` is the actual wire `regs[j]`), then one controlled-Z whose
controls are all wires but the last and whose target is the last wire,
then the same X gates again.  On an out-of-range `'0'` bit, or an empty
register list with marked states present, the call raises `IndexError`
instead. -/
theorem C5_gate_order (o : QuantumOracle) (hreg : o.input_registers ≠ [])
    (hlen : ∀ s ∈ o.marked_states, ∀ j ∈ zeroPositions s,
      j < o.input_registers.length) :
    apply_oracle o
      = some ([Op.adder 1 o.input_registers (2 ^ o.n_qubits)]
          ++ (o.marked_states.map fun s =>
              ((zeroPositions s).map fun j =>
                  Op.paulix (o.input_registers.getD j 0))
                ++ [Op.cz o.input_registers.dropLast
                      (o.input_registers.getLast hreg)]
                ++ ((zeroPositions s).map fun j =>
                      Op.paulix (o.input_registers.getD j 0))).flatten
          ++ [Op.adder (-1) o.input_registers (2 ^ o.n_qubits)]) := by
  rw [apply_oracle,
    statesOps_eq_some o.input_registers hreg o.marked_states hlen]

/-- C5 witness: the oracle with register `[0, 1]` and marked state "01"
completes, emitting increment, X on wire 0, controlled-Z with control
`[0]` and target 1, X on wire 0 again, decrement. -/
theorem C5_witness :
    apply_oracle ⟨[0, 1], 2, [['0', '1']], []⟩
      = some [Op.adder 1 [0, 1] 4, Op.paulix 0,
          Op.cz [0] 1, Op.paulix 0, Op.adder (-1) [0, 1] 4] := by
  rw [C5_gate_order ⟨[0, 1], 2, [['0', '1']], []⟩ (by simp) (by decide)]
  rfl

/-- C5 counterexample: the oracle constructed from `Base64("2")` with
`n_qubits = 1` and register `[0]` has marked state "10", whose `'0'` bit
sits at position 1, beyond the one-wire register; `apply_oracle` raises
`IndexError` at `input_registers[1]` (the `none` case) instead of
applying the claimed X/controlled-Z/X sandwich. -/
theorem C5_counterexample :
    ∃ o : QuantumOracle,
      mkOracle [0] 1 (some ⟨["Mg==".data], []⟩) = Except.ok o
      ∧ apply_oracle o = none := by
  exact ⟨⟨[0], 1, [['1', '0']], []⟩, by rfl, by rfl⟩

/-- C6: for every natural `v` and every `n_qubits`, constructing an
oracle from a configuration entry holding the Base64 encoding of the
decimal string of `v` yields the decoded string `bin(v)[2:]` left-zero-
padded to `n_qubits` bits (the Base64/decimal round-trip). -/
theorem C6_base64_roundtrip (v n : Nat) (regs : List Nat) :
    mkOracle regs n (some ⟨[b64EncodeBytes (utf8Encode (pyStrNat v))],
        [b64EncodeBytes (utf8Encode (pyStrNat v))]⟩)
      = Except.ok ⟨regs, n, [zfill n (pyBinNat v)], [zfill n (pyBinNat v)]⟩ := by
  have hd := decode_base64_encode n v
  rw [mkOracle, load_config]
  simp only [decodeAll, hd]
  rfl

/-- C7: an oracle whose marked-states list is empty emits exactly the
increment and the decrement, nothing else (the state loop body, and with
it the only possible `IndexError`, is never reached). -/
theorem C7_empty_marked (o : QuantumOracle) (h : o.marked_states = []) :
    apply_oracle o
      = some [Op.adder 1 o.input_registers (2 ^ o.n_qubits),
          Op.adder (-1) o.input_registers (2 ^ o.n_qubits)] := by
  rw [apply_oracle, h]
  rfl

/-- C7 witness: a concrete oracle with no marked states. -/
theorem C7_witness :
    apply_oracle ⟨[0], 1, [], [['1']]⟩
      = some [Op.adder 1 [0] 2, Op.adder (-1) [0] 2] :=
  C7_empty_marked ⟨[0], 1, [], [['1']]⟩ rfl

/-- C8: the state-transformer translations of both methods return the
object unchanged (the bodies contain no field assignment), both are pure
functions of the object, and each depends only on the fields it reads:
`is_solution` only on `solutions`, `apply_oracle` only on
`input_registers`, `n_qubits` and `marked_states`. -/
theorem C8_no_mutation (o o2 : QuantumOracle) (x : List Int) :
    (applyOracleS o).1 = o ∧ (isSolutionS o x).1 = o
    ∧ (o.solutions = o2.solutions → is_solution o x = is_solution o2 x)
    ∧ (o.input_registers = o2.input_registers → o.n_qubits = o2.n_qubits →
        o.marked_states = o2.marked_states → apply_oracle o = apply_oracle o2) := by
  refine ⟨rfl, rfl, ?_, ?_⟩
  · intro h
    rw [is_solution, is_solution, h]
  · intro h1 h2 h3
    rw [apply_oracle, apply_oracle, h1, h2, h3]

/-- C8 witness: two oracles differing in every field except `solutions`
agree on `is_solution`. -/
theorem C8_witness :
    is_solution ⟨[0], 1, [], [['1']]⟩ [1]
      = is_solution ⟨[5, 7], 3, [['0']], [['1']]⟩ [1] :=
  (C8_no_mutation ⟨[0], 1, [], [['1']]⟩ ⟨[5, 7], 3, [['0']], [['1']]⟩ [1]).2.2.1 rfl

/-- C9: `is_solution` cannot distinguish inputs whose concatenated
Python binary forms coincide. -/
theorem C9_concat_invariance (o : QuantumOracle) (x y : List Int)
    (h : (x.map pyBinInt).flatten = (y.map pyBinInt).flatten) :
    is_solution o x = is_solution o y := by
  rw [is_solution, is_solution, h]

/-- C9 witness: `[3]` and `[1, 1]` concatenate to the same string "11",
so `is_solution` agrees on them (here both return 1). -/
theorem C9_witness :
    (([3] : List Int).map pyBinInt).flatten
        = (([1, 1] : List Int).map pyBinInt).flatten
    ∧ is_solution ⟨[0, 1], 2, [], [['1', '1']]⟩ [3]
        = is_solution ⟨[0, 1], 2, [], [['1', '1']]⟩ [1, 1] :=
  ⟨by rfl, C9_concat_invariance ⟨[0, 1], 2, [], [['1', '1']]⟩ [3] [1, 1] (by rfl)⟩

/-- C10: `is_solution` is total on every integer list (including the
empty list and lists with entries other than 0 and 1) and always returns
exactly 0 or 1. -/
theorem C10_is_solution_total (o : QuantumOracle) (x : List Int) :
    is_solution o x = 0 ∨ is_solution o x = 1 := by
  rw [is_solution]
  by_cases h : (x.map pyBinInt).flatten ∈ o.solutions
  · right; simp [h]
  · left; simp [h]
